import Mathlib

/-!
Verification of the CRAM decoding core of the `noodles` genomics library.

Each Rust function under scrutiny is shallowly embedded as an executable
Lean definition: machine integers become `Nat`/`Int` with explicit
wrap-around where it matters, byte streams become `List Nat` consumed
front-to-back, and fallible operations return `Option`/`Except`.  The
theorems at the end of the file settle the specification claims against
these embeddings.
-/

set_option maxRecDepth 4000

namespace Noodles

/-! ## Reference-sequence context

Embeds `noodles-cram/src/data_container/reference_sequence_context.rs`.
`Position` is a positive machine integer in the source; only `min`/`max`
are used on it here, so it is embedded as `Nat`. -/

structure Context where
  reference_sequence_id : Nat
  alignment_start : Nat
  alignment_end : Nat
  deriving DecidableEq, Repr

inductive ReferenceSequenceContext where
  | Some (context : Context)
  | None
  | Many
  deriving DecidableEq, Repr

def ReferenceSequenceContext.some (reference_sequence_id alignment_start alignment_end : Nat) :
    ReferenceSequenceContext :=
  .Some ⟨reference_sequence_id, alignment_start, alignment_end⟩

def ReferenceSequenceContext.update (self : ReferenceSequenceContext)
    (reference_sequence_id : Option Nat) (alignment_start : Option Nat)
    (alignment_end : Option Nat) : ReferenceSequenceContext :=
  match self, reference_sequence_id, alignment_start, alignment_end with
  | .Some context, .some record_id, .some record_start, .some record_end =>
      if record_id = context.reference_sequence_id then
        ReferenceSequenceContext.some record_id
          (min record_start context.alignment_start)
          (max record_end context.alignment_end)
      else
        .Many
  | .Some _, _, _, _ => .Many
  | .None, .some _, _, _ => .Many
  | .None, .none, _, _ => .None
  | .Many, _, _, _ => .Many

/-- Folding a list of `(start, end)` updates, all carrying the same id,
into a context. -/
def ReferenceSequenceContext.updateAll (self : ReferenceSequenceContext) (id : Nat)
    (updates : List (Nat × Nat)) : ReferenceSequenceContext :=
  updates.foldl (fun c u => c.update (.some id) (.some u.1) (.some u.2)) self

/-! ## Slice builder

Embeds `noodles-cram/src/data_container/slice/builder.rs`.  Only the three
record fields consulted by `add_record` are modelled; mutation of the
builder is modelled by returning the new builder, and the early error
return leaves the caller's builder untouched while handing the record
back inside the error. -/

def MAX_RECORD_COUNT : Nat := 10240

structure Rec where
  reference_sequence_id : Option Nat
  alignment_start : Option Nat
  alignment_end : Option Nat
  deriving DecidableEq, Repr

instance : Inhabited Rec := ⟨⟨.none, .none, .none⟩⟩

inductive AddRecordError where
  | SliceFull (record : Rec)
  deriving DecidableEq, Repr

structure Builder where
  records : List Rec
  reference_sequence_context : ReferenceSequenceContext
  deriving DecidableEq, Repr

def Builder.is_empty (b : Builder) : Bool :=
  b.records.isEmpty

/-- The seeding match of `add_record` on an empty builder (source lines 54–64). -/
def seedContext (record : Rec) : ReferenceSequenceContext :=
  match record.reference_sequence_id, record.alignment_start, record.alignment_end with
  | .some id, .some start, .some stop => ReferenceSequenceContext.some id start stop
  | _, _, _ => .None

def Builder.add_record (b : Builder) (record : Rec) : Except AddRecordError Builder :=
  if b.records.length ≥ MAX_RECORD_COUNT then
    .error (.SliceFull record)
  else
    let ctx :=
      if b.is_empty then
        seedContext record
      else
        b.reference_sequence_context.update record.reference_sequence_id
          record.alignment_start record.alignment_end
    .ok ⟨b.records ++ [record], ctx⟩

/-! ## fqzcomp: `read_array`

Embeds `noodles-cram/src/codecs/fqzcomp.rs` lines 226–284.  The byte
source is a `List Nat` consumed front-to-back; `vec![0; n]` becomes
`List.replicate n 0`; Rust's panicking index operations become explicit
bounds checks returning `.panicked`, so that a slice-index panic is a
distinguishable outcome rather than undefined behaviour. -/

inductive ArrayResult where
  | ok (a : List Nat) (rest : List Nat)
  | eofErr
  | panicked
  deriving DecidableEq, Repr

/-- Write `len` copies of `v` starting at index `start` (Rust's
`for _ in 0..copy { buf[idx] = v; idx += 1 }` loop body, with the bounds
check performed by the caller). -/
def fillRange (a : List Nat) (start v : Nat) : Nat → List Nat
  | 0 => a
  | l + 1 => fillRange (a.set start v) (start + 1) v l

/-- First loop of `read_array`: collect run bytes into `runs`
(`while z < n { let run = reader.read_u8()?; runs[j] = run; ... }`).
`runs[j]` with `j` out of bounds panics in the source. -/
def readRuns (n : Nat) (runs : List Nat) (j z last : Nat) : List Nat → ArrayResult
  | [] => if z < n then .eofErr else .ok runs []
  | run :: rest =>
      if z < n then
        if j < runs.length then
          let runs1 := runs.set j run
          if run = last then
            match rest with
            | [] => .eofErr
            | copy :: rest2 =>
                if j + 1 + copy ≤ runs1.length then
                  readRuns n (fillRange runs1 (j + 1) run copy) (j + 1 + copy)
                    (z + run + run * copy) run rest2
                else .panicked
          else
            readRuns n runs1 (j + 1) (z + run) run rest
        else .panicked
      else .ok runs (run :: rest)

/-- Second loop of `read_array`: expand the collected `runs` into the output
array `a`.  The function is entered with `z < n` already established and
`run_len` holding the partial inner-loop accumulator; reading `runs[j]` past
the end of `runs`, or writing `a[z]` past the end of `a`, panics in the
source. -/
def expandRuns (n : Nat) (a : List Nat) (i z run_len : Nat) : List Nat → Option (List Nat)
  | [] => .none
  | part :: rest =>
      let rl := run_len + part
      if part = 255 then
        expandRuns n a i z rl rest
      else
        if z + rl ≤ a.length then
          let a1 := fillRange a z i rl
          if z + rl < n then
            expandRuns n a1 (i + 1) (z + rl) 0 rest
          else .some a1
        else .none

def read_array (n : Nat) (input : List Nat) : ArrayResult :=
  match readRuns n (List.replicate n 0) 0 0 0 input with
  | .eofErr => .eofErr
  | .panicked => .panicked
  | .ok runs rest =>
      if 0 < n then
        match expandRuns n (List.replicate n 0) 0 0 0 runs with
        | .none => .panicked
        | .some a => .ok a rest
      else .ok (List.replicate n 0) rest

/-! ## fqzcomp: `reverse_qualities`

Embeds `noodles-cram/src/codecs/fqzcomp.rs` lines 286–307 and the
`DO_REV` dispatch at lines 81–83. -/

/-- Rust's `qual.swap(a, b)`; indices are kept in bounds by the callers
below (out-of-bounds `set`/`getD` would be a panic in the source). -/
def swapAt (l : List Nat) (a b : Nat) : List Nat :=
  (l.set a (l.getD b 0)).set b (l.getD a 0)

/-- The two-pointer in-place reversal loop of `reverse_qualities`
(`while j < k { qual.swap(i + j, i + k); j += 1; k -= 1 }`). -/
def swapLoop (l : List Nat) (i j k : Nat) : List Nat :=
  if j < k then swapLoop (swapAt l (i + j) (i + k)) i (j + 1) (k - 1) else l
  termination_by k - j
  decreasing_by omega

/-- The record loop of `reverse_qualities`; `rev_len[rec]` past the end of
`rev_len` panics in the source (modelled as `.none`). -/
def reverseQualitiesGo (qual : List Nat) (qual_len i : Nat) :
    List (Bool × Nat) → Option (List Nat)
  | [] => if i < qual_len then .none else .some qual
  | (rev, len) :: rest =>
      if i < qual_len then
        let q1 := if rev then swapLoop qual i 0 (len - 1) else qual
        reverseQualitiesGo q1 qual_len (i + len) rest
      else .some qual

def reverse_qualities (qual : List Nat) (qual_len : Nat)
    (rev_len : List (Bool × Nat)) : Option (List Nat) :=
  reverseQualitiesGo qual qual_len 0 rev_len

/-- The post-stream dispatch of `fqz_decode` (lines 81–83): the reversal runs
iff the global `DO_REV` flag is set in the parameter block. -/
def fqzApplyReverse (do_rev : Bool) (dst : List Nat) (buf_len : Nat)
    (rev_len : List (Bool × Nat)) : Option (List Nat) :=
  if do_rev then reverse_qualities dst buf_len rev_len else .some dst

/-- The claim's description of the reversal, stated in its own words for the
refinement proof: each segment with a `true` flag is reversed, each segment
with a `false` flag is kept byte-for-byte. -/
def segmentReverseSpec : List (Bool × Nat) → List Nat → List Nat
  | [], l => l
  | (rev, len) :: rest, l =>
      (if rev then (l.take len).reverse else l.take len) ++
        segmentReverseSpec rest (l.drop len)

/-! ## Byte-source primitives shared by the parsers below -/

/-- `reader.read_u8()`. -/
def read_u8 : List Nat → Option (Nat × List Nat)
  | [] => .none
  | b :: rest => .some (b, rest)

/-- `reader.read_exact(&mut buf)` for an `n`-byte buffer. -/
def read_exact (n : Nat) (input : List Nat) : Option (List Nat × List Nat) :=
  if n ≤ input.length then .some (input.take n, input.drop n) else .none

/-- The value of four little-endian bytes. -/
def leU32 (b0 b1 b2 b3 : Nat) : Nat :=
  b0 + 256 * b1 + 65536 * b2 + 16777216 * b3

/-- `reader.read_u32::<LittleEndian>()`. -/
def read_u32_le : List Nat → Option (Nat × List Nat)
  | b0 :: b1 :: b2 :: b3 :: rest => .some (leU32 b0 b1 b2 b3, rest)
  | _ => .none

/-! ## rANS 4x8 stream framing

Embeds `noodles-cram/src/codecs/rans/decode.rs` lines 10–43. -/

inductive Order where
  | Zero
  | One
  deriving DecidableEq, Repr

/-- Modelled from the spec: `Order::try_from` (the `rans` module root is
outside `src/`) accepts order byte 0 as order-0 and 1 as order-1 and rejects
every other byte ("order byte (0 or 1)"). -/
def orderTryFrom (b : Nat) : Option Order :=
  if b = 0 then .some .Zero else if b = 1 then .some .One else .none

inductive RansError where
  | invalidOrder
  | truncated
  deriving DecidableEq, Repr

def read_header (input : List Nat) :
    Except RansError ((Order × Nat × Nat) × List Nat) :=
  match read_u8 input with
  | .none => .error .truncated
  | .some (b, r1) =>
      match orderTryFrom b with
      | .none => .error .invalidOrder
      | .some order =>
          match read_u32_le r1 with
          | .none => .error .truncated
          | .some (compressed_len, r2) =>
              match read_u32_le r2 with
              | .none => .error .truncated
              | .some (data_len, r3) => .ok ((order, compressed_len, data_len), r3)

/-- Modelled from the spec: the order-0 / order-1 payload decoders
(`order_0::decode` / `order_1::decode`) are outside `src/`.  Their Rust
signature `fn decode(reader, buf: &mut [u8])` fills the caller's buffer in
place and can only fail; a mutable slice cannot change length, which the
`length_eq` field records.  `rans_decode` below is parametric in the two
decoders. -/
structure OrderDecoder where
  decode : List Nat → List Nat → Except RansError (List Nat × List Nat)
  length_eq : ∀ inp buf out rest, decode inp buf = .ok (out, rest) → out.length = buf.length

def rans_decode (d0 d1 : OrderDecoder) (input : List Nat) :
    Except RansError (List Nat × List Nat) :=
  match read_header input with
  | .error e => .error e
  | .ok ((order, _, data_len), rest) =>
      let buf := List.replicate data_len 0
      match order with
      | .Zero => d0.decode rest buf
      | .One => d1.decode rest buf

/-- A trivial length-preserving payload decoder, used to instantiate the
parametric `rans_decode` at concrete inputs. -/
def idOrderDecoder : OrderDecoder where
  decode := fun inp buf => .ok (buf, inp)
  length_eq := by
    intro inp buf out rest h
    cases h
    rfl

/-! ## CRAM file definition

Embeds `noodles-cram/src/async/reader.rs` lines 63–70 and 218–254; the
`async` reads become plain state-passing reads. -/

/-- Modelled from the spec: `crate::MAGIC_NUMBER` (the crate root is outside
`src/`) is the 4-byte magic `CRAM`. -/
def MAGIC_NUMBER : List Nat := [0x43, 0x52, 0x41, 0x4D]

inductive CramError where
  | invalidMagic
  | truncated
  deriving DecidableEq, Repr

structure FileDefinition where
  version : Nat × Nat
  file_id : List Nat
  deriving DecidableEq, Repr

def read_magic_number (input : List Nat) : Except CramError (List Nat) :=
  match read_exact 4 input with
  | .none => .error .truncated
  | .some (magic, rest) =>
      if magic = MAGIC_NUMBER then .ok rest else .error .invalidMagic

def read_format (input : List Nat) : Option ((Nat × Nat) × List Nat) :=
  match read_u8 input with
  | .none => .none
  | .some (major, r1) =>
      match read_u8 r1 with
      | .none => .none
      | .some (minor, r2) => .some ((major, minor), r2)

def read_file_id (input : List Nat) : Option (List Nat × List Nat) :=
  read_exact 20 input

def read_file_definition (input : List Nat) :
    Except CramError (FileDefinition × List Nat) :=
  match read_magic_number input with
  | .error e => .error e
  | .ok r1 =>
      match read_format r1 with
      | .none => .error .truncated
      | .some (version, r2) =>
          match read_file_id r2 with
          | .none => .error .truncated
          | .some (file_id, r3) => .ok (⟨version, file_id⟩, r3)

/-! ## BCF typed values

Embeds `noodles-bcf/src/writer/value.rs`.  `Int8`/`Int16`/`Int32` payloads
are `Int`s constrained to the machine-integer range by `wfValue`; the byte
image of a value is its two's-complement little-endian form. -/

inductive Value where
  | Int8 (v : Option Int)
  | Int8Array (vs : List Int)
  | Int16 (v : Option Int)
  | Int16Array (vs : List Int)
  | Int32 (v : Option Int)
  | Int32Array (vs : List Int)
  deriving DecidableEq, Repr

/-- `writer.write_i8(v)`: the two's-complement byte of an `i8`. -/
def i8Byte (v : Int) : Nat := (v % 256).toNat

/-- `writer.write_i16::<LittleEndian>(v)`. -/
def i16Bytes (v : Int) : List Nat :=
  let x := (v % 65536).toNat
  [x % 256, x / 256]

/-- `writer.write_i32::<LittleEndian>(v)`. -/
def i32Bytes (v : Int) : List Nat :=
  let x := (v % 4294967296).toNat
  [x % 256, x / 256 % 256, x / 65536 % 256, x / 16777216 % 256]

/-- Modelled from the spec: `write_type` lives in `writer/value/ty.rs`,
outside `src/`.  The BCF typed-value header byte carries the type code in
its low nibble and the length in its high nibble; the unit tests in
`writer/value.rs` pin this layout for lengths up to 14 (`0x00`, `0x11`,
`0x31`, …), and a length of 15 or more is escaped with nibble 15 followed
by the length as a typed `Int32` scalar value. -/
def write_type (code len : Nat) : List Nat :=
  if len < 15 then [len * 16 + code]
  else (15 * 16 + code) :: 19 :: i32Bytes (len : Int)

def write_value : Option Value → List Nat
  | .none => [0]
  | .some (.Int8 .none) => write_type 1 0
  | .some (.Int8 (.some v)) => write_type 1 1 ++ [i8Byte v]
  | .some (.Int8Array vs) => write_type 1 vs.length ++ vs.map i8Byte
  | .some (.Int16 .none) => write_type 2 0
  | .some (.Int16 (.some v)) => write_type 2 1 ++ i16Bytes v
  | .some (.Int16Array vs) => write_type 2 vs.length ++ (vs.map i16Bytes).flatten
  | .some (.Int32 .none) => write_type 3 0
  | .some (.Int32 (.some v)) => write_type 3 1 ++ i32Bytes v
  | .some (.Int32Array vs) => write_type 3 vs.length ++ (vs.map i32Bytes).flatten

/-- Two's-complement value of one byte. -/
def decodeI8 (b : Nat) : Int := if b < 128 then (b : Int) else (b : Int) - 256

/-- Two's-complement value of two little-endian bytes. -/
def decodeI16 (b0 b1 : Nat) : Int :=
  let x := b0 + 256 * b1
  if x < 32768 then (x : Int) else (x : Int) - 65536

/-- Two's-complement value of four little-endian bytes. -/
def decodeI32 (b0 b1 b2 b3 : Nat) : Int :=
  let x := leU32 b0 b1 b2 b3
  if x < 2147483648 then (x : Int) else (x : Int) - 4294967296

def decodeI8List (bs : List Nat) : List Int := bs.map decodeI8

def decodeI16List : List Nat → List Int
  | b0 :: b1 :: rest => decodeI16 b0 b1 :: decodeI16List rest
  | _ => []

def decodeI32List : List Nat → List Int
  | b0 :: b1 :: b2 :: b3 :: rest => decodeI32 b0 b1 b2 b3 :: decodeI32List rest
  | _ => []

/-- Modelled from the spec: the type-byte parser of the BCF reader (the
reader side is outside `src/`), inverse to `write_type`. -/
def read_type : List Nat → Option ((Nat × Nat) × List Nat)
  | [] => .none
  | t :: rest =>
      if t / 16 = 15 then
        match rest with
        | tl :: b0 :: b1 :: b2 :: b3 :: r2 =>
            if tl = 19 then
              let n := decodeI32 b0 b1 b2 b3
              if 0 ≤ n then .some ((t % 16, n.toNat), r2) else .none
            else .none
        | _ => .none
      else .some ((t % 16, t / 16), rest)

/-- Modelled from the spec: the typed-value parser of the BCF reader
(`decode` in the round-trip property), inverse to `write_value`: type code 0
with length 0 is the missing value, length 0 of an integer code is the
missing scalar, length 1 is a scalar, and any other length is an array. -/
def read_value (input : List Nat) : Option (Option Value × List Nat) :=
  match read_type input with
  | .none => .none
  | .some ((code, len), r) =>
      if code = 0 then
        if len = 0 then .some (.none, r) else .none
      else if code = 1 then
        if len = 0 then .some (.some (.Int8 .none), r)
        else
          match read_exact len r with
          | .none => .none
          | .some (bytes, r2) =>
              let vals := decodeI8List bytes
              if len = 1 then .some (.some (.Int8 (.some (vals.getD 0 0))), r2)
              else .some (.some (.Int8Array vals), r2)
      else if code = 2 then
        if len = 0 then .some (.some (.Int16 .none), r)
        else
          match read_exact (2 * len) r with
          | .none => .none
          | .some (bytes, r2) =>
              let vals := decodeI16List bytes
              if len = 1 then .some (.some (.Int16 (.some (vals.getD 0 0))), r2)
              else .some (.some (.Int16Array vals), r2)
      else if code = 3 then
        if len = 0 then .some (.some (.Int32 .none), r)
        else
          match read_exact (4 * len) r with
          | .none => .none
          | .some (bytes, r2) =>
              let vals := decodeI32List bytes
              if len = 1 then .some (.some (.Int32 (.some (vals.getD 0 0))), r2)
              else .some (.some (.Int32Array vals), r2)
      else .none

def wfInt8 (v : Int) : Bool := decide (-128 ≤ v) && decide (v ≤ 127)

def wfInt16 (v : Int) : Bool := decide (-32768 ≤ v) && decide (v ≤ 32767)

def wfInt32 (v : Int) : Bool := decide (-2147483648 ≤ v) && decide (v ≤ 2147483647)

/-- Well-formedness for the amended round-trip claim: scalar payloads fit
their machine width; arrays additionally have at least 2 elements (empty and
singleton arrays share their byte image with the missing scalar and the
scalar respectively) and fewer than `2^31` elements (so the length fits the
escaped `Int32` length field). -/
def wfValue : Option Value → Bool
  | .none => true
  | .some (.Int8 .none) => true
  | .some (.Int8 (.some v)) => wfInt8 v
  | .some (.Int8Array vs) =>
      decide (2 ≤ vs.length) && decide (vs.length < 2147483648) && vs.all wfInt8
  | .some (.Int16 .none) => true
  | .some (.Int16 (.some v)) => wfInt16 v
  | .some (.Int16Array vs) =>
      decide (2 ≤ vs.length) && decide (vs.length < 2147483648) && vs.all wfInt16
  | .some (.Int32 .none) => true
  | .some (.Int32 (.some v)) => wfInt32 v
  | .some (.Int32Array vs) =>
      decide (2 ≤ vs.length) && decide (vs.length < 2147483648) && vs.all wfInt32

/-! ## Normalized reference MD5

Embeds `calculate_normalized_sequence_digest` from
`noodles-cram/src/data_container/slice/builder.rs` lines 232–245: bytes
outside the inclusive range 33..=126 are stripped, ASCII lowercase letters
are uppercased, and the MD5 digest of the result is returned.  The `md5`
crate's digest is embedded as a full MD5 (RFC 1321) over `Nat` words with
explicit `% 2^32`. -/

/-- The per-round left-rotation amounts of MD5. -/
def md5S : List Nat :=
  [7, 12, 17, 22, 7, 12, 17, 22, 7, 12, 17, 22, 7, 12, 17, 22,
   5, 9, 14, 20, 5, 9, 14, 20, 5, 9, 14, 20, 5, 9, 14, 20,
   4, 11, 16, 23, 4, 11, 16, 23, 4, 11, 16, 23, 4, 11, 16, 23,
   6, 10, 15, 21, 6, 10, 15, 21, 6, 10, 15, 21, 6, 10, 15, 21]

/-- The MD5 sine-derived round constants. -/
def md5K : List Nat :=
  [0xd76aa478, 0xe8c7b756, 0x242070db, 0xc1bdceee,
   0xf57c0faf, 0x4787c62a, 0xa8304613, 0xfd469501,
   0x698098d8, 0x8b44f7af, 0xffff5bb1, 0x895cd7be,
   0x6b901122, 0xfd987193, 0xa679438e, 0x49b40821,
   0xf61e2562, 0xc040b340, 0x265e5a51, 0xe9b6c7aa,
   0xd62f105d, 0x02441453, 0xd8a1e681, 0xe7d3fbc8,
   0x21e1cde6, 0xc33707d6, 0xf4d50d87, 0x455a14ed,
   0xa9e3e905, 0xfcefa3f8, 0x676f02d9, 0x8d2a4c8a,
   0xfffa3942, 0x8771f681, 0x6d9d6122, 0xfde5380c,
   0xa4beea44, 0x4bdecfa9, 0xf6bb4b60, 0xbebfbc70,
   0x289b7ec6, 0xeaa127fa, 0xd4ef3085, 0x04881d05,
   0xd9d4d039, 0xe6db99e5, 0x1fa27cf8, 0xc4ac5665,
   0xf4292244, 0x432aff97, 0xab9423a7, 0xfc93a039,
   0x655b59c3, 0x8f0ccc92, 0xffeff47d, 0x85845dd1,
   0x6fa87e4f, 0xfe2ce6e0, 0xa3014314, 0x4e0811a1,
   0xf7537e82, 0xbd3af235, 0x2ad7d2bb, 0xeb86d391]

/-- 32-bit left rotation of `x < 2^32` by `s ≤ 32` bits. -/
def rotl32 (x s : Nat) : Nat := (x % 2 ^ (32 - s)) * 2 ^ s + x / 2 ^ (32 - s)

def md5F (b c d : Nat) : Nat := (b &&& c) ||| ((b ^^^ 0xffffffff) &&& d)

def md5G (b c d : Nat) : Nat := (d &&& b) ||| ((d ^^^ 0xffffffff) &&& c)

def md5H (b c d : Nat) : Nat := b ^^^ c ^^^ d

def md5I (b c d : Nat) : Nat := c ^^^ (b ||| (d ^^^ 0xffffffff))

def md5Round (M : List Nat) (st : Nat × Nat × Nat × Nat) (i : Nat) : Nat × Nat × Nat × Nat :=
  let (a, b, c, d) := st
  let f :=
    if i < 16 then md5F b c d
    else if i < 32 then md5G b c d
    else if i < 48 then md5H b c d
    else md5I b c d
  let g :=
    if i < 16 then i
    else if i < 32 then (5 * i + 1) % 16
    else if i < 48 then (3 * i + 5) % 16
    else (7 * i) % 16
  let tmp := (f + a + md5K.getD i 0 + M.getD g 0) % 4294967296
  (d, (b + rotl32 tmp (md5S.getD i 0)) % 4294967296, b, c)

def md5Block (st : Nat × Nat × Nat × Nat) (M : List Nat) : Nat × Nat × Nat × Nat :=
  let (a, b, c, d) := (List.range 64).foldl (md5Round M) st
  ((st.1 + a) % 4294967296, (st.2.1 + b) % 4294967296,
   (st.2.2.1 + c) % 4294967296, (st.2.2.2 + d) % 4294967296)

/-- Group bytes into little-endian 32-bit words. -/
def leWords : List Nat → List Nat
  | b0 :: b1 :: b2 :: b3 :: rest => leU32 b0 b1 b2 b3 :: leWords rest
  | _ => []

/-- Little-endian 8-byte image of the 64-bit message bit length. -/
def le8 (n : Nat) : List Nat :=
  [n % 256, n / 256 % 256, n / 65536 % 256, n / 16777216 % 256,
   n / 4294967296 % 256, n / 1099511627776 % 256, n / 281474976710656 % 256,
   n / 72057594037927936 % 256]

/-- Little-endian 4-byte image of a 32-bit word. -/
def le4 (n : Nat) : List Nat := [n % 256, n / 256 % 256, n / 65536 % 256, n / 16777216 % 256]

/-- MD5 padding: a `0x80` byte, zeros to 56 mod 64, then the bit length. -/
def md5Pad (msg : List Nat) : List Nat :=
  msg ++ 128 :: List.replicate ((119 - msg.length % 64) % 64) 0 ++ le8 (8 * msg.length)

/-- Fold the compression function over the 16-word blocks. -/
def md5Blocks (st : Nat × Nat × Nat × Nat) : List Nat → Nat × Nat × Nat × Nat
  | w0 :: w1 :: w2 :: w3 :: w4 :: w5 :: w6 :: w7 ::
      w8 :: w9 :: w10 :: w11 :: w12 :: w13 :: w14 :: w15 :: rest =>
      md5Blocks (md5Block st
        [w0, w1, w2, w3, w4, w5, w6, w7, w8, w9, w10, w11, w12, w13, w14, w15]) rest
  | _ => st

/-- The MD5 digest of a byte sequence, as 16 bytes. -/
def md5 (msg : List Nat) : List Nat :=
  let r := md5Blocks (0x67452301, 0xefcdab89, 0x98badcfe, 0x10325476) (leWords (md5Pad msg))
  le4 r.1 ++ le4 r.2.1 ++ le4 r.2.2.1 ++ le4 r.2.2.2

/-- `u8::is_ascii_graphic`: the inclusive byte range 33..=126. -/
def isAsciiGraphic (b : Nat) : Bool := decide (33 ≤ b) && decide (b ≤ 126)

/-- `u8::to_ascii_uppercase`. -/
def toAsciiUppercase (b : Nat) : Nat := if 97 ≤ b ∧ b ≤ 122 then b - 32 else b

/-- The normalization applied byte-by-byte by the digest loop: strip
non-graphic bytes, uppercase the rest (feeding the hasher incrementally is
hashing the accumulated normalized sequence). -/
def normalizeSequence (s : List Nat) : List Nat :=
  (s.filter isAsciiGraphic).map toAsciiUppercase

def calculate_normalized_sequence_digest (sequence : List Nat) : List Nat :=
  md5 (normalizeSequence sequence)

end Noodles

namespace Noodles

/-! ## Theorems about the reference-sequence context -/

theorem updateAll_single (id s e : Nat) (updates : List (Nat × Nat)) :
    (ReferenceSequenceContext.some id s e).updateAll id updates =
      ReferenceSequenceContext.some id
        (updates.foldl (fun a u => min a u.1) s)
        (updates.foldl (fun a u => max a u.2) e) := by
  induction updates generalizing s e with
  | nil => rfl
  | cons u rest ih =>
      simp only [ReferenceSequenceContext.updateAll, List.foldl_cons] at *
      have hstep :
          (ReferenceSequenceContext.some id s e).update (.some id) (.some u.1) (.some u.2) =
            ReferenceSequenceContext.some id (min u.1 s) (max u.2 e) := by
        simp [ReferenceSequenceContext.update, ReferenceSequenceContext.some]
      rw [hstep]
      have := ih (min u.1 s) (max u.2 e)
      simpa [ReferenceSequenceContext.updateAll, Nat.min_comm, Nat.max_comm] using this

/-- **C2.** Starting from `Single(id, s, e)`, any finite sequence of updates all
carrying the same id and full `(start, end)` spans yields
`Single(id, min(s, starts), max(e, ends))`; in particular `Single(0, 8, 13)`
updated with `(Some 0, Some 5, Some 21)` becomes `Single(0, 5, 21)`. -/
theorem update_same_id_min_max (id s e : Nat) (updates : List (Nat × Nat)) :
    (ReferenceSequenceContext.some id s e).updateAll id updates =
      ReferenceSequenceContext.some id
        (updates.foldl (fun a u => min a u.1) s)
        (updates.foldl (fun a u => max a u.2) e) ∧
    (ReferenceSequenceContext.some 0 8 13).update (.some 0) (.some 5) (.some 21) =
      ReferenceSequenceContext.some 0 5 21 := by
  exact ⟨updateAll_single id s e updates, by decide⟩

/-- **C3 counterexample.** The claim "a `Single` stays `Single` if and only if
the update agrees on the same reference id" fails: here the update carries the
same id `0` as the context, yet the context collapses to `Many` because the
alignment start and end are missing. -/
theorem single_same_id_missing_span_collapses :
    (ReferenceSequenceContext.some 0 8 13).update (.some 0) .none .none =
      ReferenceSequenceContext.Many ∧
    ReferenceSequenceContext.Many ≠ ReferenceSequenceContext.some 0 8 13 := by
  decide

/-- **C3 (amended).** Under a single `update (id?, start?, end?)`: a `Single`
stays `Single` iff the update carries `Some` of the same reference id
*together with* `Some` start and `Some` end (an id mismatch, a missing id, or
a missing start/end collapses it to `Many`); a `None` context stays `None`
when the update's id is `None` and becomes `Many` when it is `Some`; a `Many`
context stays `Many` under every update. -/
theorem update_case_analysis (c : Context) (id : Option Nat)
    (start stop : Option Nat) :
    ((∃ d, (ReferenceSequenceContext.Some c).update id start stop =
        ReferenceSequenceContext.Some d) ↔
      (id = .some c.reference_sequence_id ∧ start.isSome ∧ stop.isSome)) ∧
    ((ReferenceSequenceContext.None).update .none start stop =
      ReferenceSequenceContext.None) ∧
    (∀ i, (ReferenceSequenceContext.None).update (.some i) start stop =
      ReferenceSequenceContext.Many) ∧
    ((ReferenceSequenceContext.Many).update id start stop =
      ReferenceSequenceContext.Many) := by
  refine ⟨?_, by cases start <;> cases stop <;> rfl, fun i => by cases start <;> cases stop <;> rfl,
    by cases id <;> cases start <;> cases stop <;> rfl⟩
  constructor
  · rintro ⟨d, hd⟩
    cases id with
    | none => simp [ReferenceSequenceContext.update] at hd
    | some i =>
        cases start with
        | none => simp [ReferenceSequenceContext.update] at hd
        | some s =>
            cases stop with
            | none => simp [ReferenceSequenceContext.update] at hd
            | some e =>
                by_cases hi : i = c.reference_sequence_id
                · exact ⟨by simp [hi], rfl, rfl⟩
                · simp [ReferenceSequenceContext.update, hi] at hd
  · rintro ⟨hid, hs, he⟩
    obtain ⟨s, rfl⟩ := Option.isSome_iff_exists.mp hs
    obtain ⟨e, rfl⟩ := Option.isSome_iff_exists.mp he
    subst hid
    refine ⟨⟨c.reference_sequence_id, min s c.alignment_start, max e c.alignment_end⟩, ?_⟩
    simp [ReferenceSequenceContext.update, ReferenceSequenceContext.some]

/-- **C3 witness.** The amended case analysis applied at the concrete inputs of
the source's own unit test. -/
theorem update_case_analysis_witness :
    ((∃ d, (ReferenceSequenceContext.Some ⟨0, 8, 13⟩).update (.some 0) (.some 5) (.some 21) =
        ReferenceSequenceContext.Some d) ↔
      ((Option.some 0 : Option Nat) = .some 0 ∧
        (Option.some 5 : Option Nat).isSome ∧ (Option.some 21 : Option Nat).isSome)) :=
  (update_case_analysis ⟨0, 8, 13⟩ (.some 0) (.some 5) (.some 21)).1

/-! ## Theorems about the slice builder -/

/-- **C9.** `add_record` on a builder already holding `MAX_RECORD_COUNT = 10240`
records (or more) fails with `SliceFull`, handing the record back and leaving
the builder unchanged (no new builder is produced); on any builder with fewer
records it appends the record and succeeds. -/
theorem add_record_capacity (b : Builder) (r : Rec) :
    (b.records.length ≥ 10240 → b.add_record r = .error (.SliceFull r)) ∧
    (b.records.length < 10240 →
      ∃ ctx, b.add_record r = .ok ⟨b.records ++ [r], ctx⟩) := by
  constructor
  · intro h
    have h2 : b.records.length ≥ MAX_RECORD_COUNT := h
    unfold Builder.add_record
    rw [if_pos h2]
  · intro h
    have h2 : ¬ b.records.length ≥ MAX_RECORD_COUNT := Nat.not_le.mpr h
    unfold Builder.add_record
    rw [if_neg h2]
    exact ⟨_, rfl⟩

/-- **C9 witness.** The capacity bound applied at a builder holding exactly
10240 default records, and the append branch applied at an empty builder. -/
theorem add_record_capacity_witness :
    (Builder.add_record ⟨List.replicate 10240 default, .None⟩ default =
      .error (.SliceFull default)) ∧
    (∃ ctx, Builder.add_record ⟨[], .None⟩ default = .ok ⟨[default], ctx⟩) :=
  ⟨(add_record_capacity ⟨List.replicate 10240 default, .None⟩ default).1
      (by rw [List.length_replicate]),
    (add_record_capacity ⟨[], .None⟩ default).2 (by decide)⟩

/-- **C10.** On an empty builder, `add_record` seeds the reference-sequence
context directly from the first record: it becomes `Single(id, start, end)`
iff the record carries all three of reference id, alignment start and
alignment end, and `None` otherwise; in particular the context of a
one-record slice is never `Many`. -/
theorem add_record_seeds_context (b : Builder) (r : Rec) (hb : b.records = []) :
    b.add_record r = .ok ⟨[r], seedContext r⟩ ∧
    (∀ i s e, r.reference_sequence_id = .some i → r.alignment_start = .some s →
      r.alignment_end = .some e → seedContext r = ReferenceSequenceContext.some i s e) ∧
    ((r.reference_sequence_id = .none ∨ r.alignment_start = .none ∨
        r.alignment_end = .none) → seedContext r = .None) ∧
    seedContext r ≠ .Many ∧
    (∀ b2 : Builder, b2.records ≠ [] → b2.records.length < MAX_RECORD_COUNT →
      b2.add_record r = .ok ⟨b2.records ++ [r],
        b2.reference_sequence_context.update r.reference_sequence_id
          r.alignment_start r.alignment_end⟩) := by
  refine ⟨?_, ?_, ?_, ?_, ?_⟩
  · obtain ⟨recs, ctx0⟩ := b
    simp only at hb
    subst hb
    have hlen : ¬ (([] : List Rec).length ≥ MAX_RECORD_COUNT) := by decide
    unfold Builder.add_record
    rw [if_neg hlen]
    simp [Builder.is_empty]
  · intro i s e hi hs he
    simp [seedContext, hi, hs, he]
  · rintro (h | h | h) <;> simp [seedContext, h]
  · rcases hr1 : r.reference_sequence_id with _ | i <;>
      rcases hr2 : r.alignment_start with _ | s <;>
      rcases hr3 : r.alignment_end with _ | e <;>
      simp [seedContext, hr1, hr2, hr3, ReferenceSequenceContext.some]
  · intro b2 hne hlt
    have h2 : ¬ b2.records.length ≥ MAX_RECORD_COUNT := Nat.not_le.mpr hlt
    have hemp : b2.is_empty = false := by
      simpa [Builder.is_empty, List.isEmpty_iff] using hne
    unfold Builder.add_record
    rw [if_neg h2]
    simp [hemp]

/-! ## Theorems about `read_array` -/

/-- **C4 (code bug).** The claim says an input whose run-length encoding is
illegal for the declared `n` is reported as an error and never causes a panic
or out-of-bounds access.  The code violates this: with `n = 2` the single run
byte `3` declares more emitted bytes than `n` and the expansion loop writes
`a[2]` past the end of the output array; with `n = 1` the run byte `255`
makes the inner loop read `runs[1]` past the end of `runs`; with `n = 1` the
bytes `[0, 1]` make the copy loop write `runs[1]` past the end of `runs`.
Each is an out-of-bounds slice index, i.e. a panic, not an `Err`.  A legal
input is included to show the intended behaviour (an array of length exactly
`n`). -/
theorem read_array_panics_on_illegal_rle :
    read_array 2 [3] = .panicked ∧
    read_array 1 [255] = .panicked ∧
    read_array 1 [0, 1] = .panicked ∧
    read_array 3 [2, 1] = .ok [0, 0, 1] [] := by
  decide

/-! ## Theorems about `reverse_qualities` -/

lemma swapAt_length (l : List Nat) (a b : Nat) : (swapAt l a b).length = l.length := by
  simp [swapAt]

lemma getElem?_swapAt (l : List Nat) (a b m : Nat) (ha : a < l.length) (hb : b < l.length) :
    (swapAt l a b)[m]? = if m = a then l[b]? else if m = b then l[a]? else l[m]? := by
  have hva : some (l.getD a 0) = l[a]? := by
    rw [List.getD_eq_getElem l 0 ha, List.getElem?_eq_getElem ha]
  have hvb : some (l.getD b 0) = l[b]? := by
    rw [List.getD_eq_getElem l 0 hb, List.getElem?_eq_getElem hb]
  unfold swapAt
  rw [List.getElem?_set, List.getElem?_set]
  simp only [List.length_set]
  by_cases h1 : b = m
  · rw [if_pos h1, if_pos hb, hva]
    by_cases h2 : m = a
    · rw [if_pos h2, show a = b by omega]
    · rw [if_neg h2, if_pos h1.symm]
  · rw [if_neg h1]
    by_cases h2 : a = m
    · rw [if_pos h2, if_pos ha, hvb, if_pos h2.symm]
    · rw [if_neg h2, if_neg (fun hh => h2 hh.symm), if_neg (fun hh => h1 hh.symm)]

lemma getElem?_swapLoop (l : List Nat) (i j k : Nat) :
    ∀ m, i + k < l.length →
      (swapLoop l i j k)[m]? =
        if i + j ≤ m ∧ m ≤ i + k then l[i + j + k - (m - i)]? else l[m]? := by
  induction l, i, j, k using swapLoop.induct with
  | case1 l i j k hjk ih =>
      intro m hk
      rw [swapLoop, if_pos hjk]
      have hlen := swapAt_length l (i + j) (i + k)
      have hk2 : i + (k - 1) < (swapAt l (i + j) (i + k)).length := by omega
      rw [ih m hk2]
      have ha : i + j < l.length := by omega
      by_cases hw : i + (j + 1) ≤ m ∧ m ≤ i + (k - 1)
      · rw [if_pos hw, if_pos (show i + j ≤ m ∧ m ≤ i + k by omega)]
        rw [getElem?_swapAt _ _ _ _ ha hk]
        rw [if_neg (show ¬ i + (j + 1) + (k - 1) - (m - i) = i + j by omega)]
        rw [if_neg (show ¬ i + (j + 1) + (k - 1) - (m - i) = i + k by omega)]
        congr 1
        omega
      · rw [if_neg hw, getElem?_swapAt _ _ _ _ ha hk]
        by_cases hm1 : m = i + j
        · rw [if_pos hm1, if_pos (show i + j ≤ m ∧ m ≤ i + k by omega)]
          congr 1
          omega
        · rw [if_neg hm1]
          by_cases hm2 : m = i + k
          · rw [if_pos hm2, if_pos (show i + j ≤ m ∧ m ≤ i + k by omega)]
            congr 1
            omega
          · rw [if_neg hm2, if_neg (show ¬ (i + j ≤ m ∧ m ≤ i + k) by omega)]
  | case2 l i j k hjk =>
      intro m _
      rw [swapLoop, if_neg hjk]
      by_cases hw : i + j ≤ m ∧ m ≤ i + k
      · rw [if_pos hw]
        congr 1
        omega
      · rw [if_neg hw]

lemma swapLoop_segment (A S C : List Nat) (h : 0 < S.length) :
    swapLoop (A ++ S ++ C) A.length 0 (S.length - 1) = A ++ S.reverse ++ C := by
  rw [List.append_assoc, List.append_assoc]
  have hk : A.length + (S.length - 1) < (A ++ (S ++ C)).length := by
    simp only [List.length_append]
    omega
  apply List.ext_getElem?
  intro m
  rw [getElem?_swapLoop _ _ _ _ m hk]
  by_cases h1 : m < A.length
  · rw [if_neg (by omega)]
    simp [List.getElem?_append, h1]
  · by_cases h2 : m < A.length + S.length
    · rw [if_pos (by omega)]
      have hidx : A.length + 0 + (S.length - 1) - (m - A.length) =
          A.length + (S.length - 1 - (m - A.length)) := by omega
      rw [hidx]
      rw [List.getElem?_append_right (by omega : A.length ≤ A.length + (S.length - 1 - (m - A.length)))]
      rw [List.getElem?_append_right (by omega : A.length ≤ m)]
      rw [Nat.add_sub_cancel_left]
      rw [List.getElem?_append, if_pos (by omega : S.length - 1 - (m - A.length) < S.length)]
      rw [List.getElem?_append,
        if_pos (show m - A.length < S.reverse.length by rw [List.length_reverse]; omega)]
      rw [List.getElem?_reverse (by omega : m - A.length < S.length)]
    · rw [if_neg (by omega)]
      rw [List.getElem?_append_right (by omega : A.length ≤ m)]
      rw [List.getElem?_append_right (by omega : A.length ≤ m)]
      rw [List.getElem?_append_right (by omega : S.length ≤ m - A.length)]
      rw [List.getElem?_append_right
        (show S.reverse.length ≤ m - A.length by rw [List.length_reverse]; omega)]
      rw [List.length_reverse]

lemma reverseQualitiesGo_segments (revs : List (Bool × Nat)) :
    ∀ (A B : List Nat), (∀ p ∈ revs, 1 ≤ p.2) → (revs.map Prod.snd).sum = B.length →
      reverseQualitiesGo (A ++ B) (A.length + B.length) A.length revs =
        some (A ++ segmentReverseSpec revs B) := by
  induction revs with
  | nil =>
      intro A B _ hsum
      simp only [List.map_nil, List.sum_nil] at hsum
      have hB : B = [] := by
        cases B with
        | nil => rfl
        | cons x xs => simp at hsum
      subst hB
      simp [reverseQualitiesGo, segmentReverseSpec]
  | cons p rest ih =>
      obtain ⟨rev, len⟩ := p
      intro A B hpos hsum
      have h1 : 1 ≤ len := hpos (rev, len) (List.mem_cons_self _ _)
      simp only [List.map_cons, List.sum_cons] at hsum
      have hlenB : len ≤ B.length := by omega
      have hS : (B.take len).length = len := by
        simp only [List.length_take]
        omega
      have hcond : A.length < A.length + B.length := by omega
      simp only [reverseQualitiesGo]
      rw [if_pos hcond]
      have hAB : A ++ B = A ++ B.take len ++ B.drop len := by
        rw [List.append_assoc, List.take_append_drop]
      have hq1 : (if rev then swapLoop (A ++ B) A.length 0 (len - 1) else A ++ B) =
          (A ++ (if rev then (B.take len).reverse else B.take len)) ++ B.drop len := by
        cases rev with
        | false =>
            rw [if_neg (by simp), if_neg (by simp)]
            rw [List.append_assoc, List.take_append_drop]
        | true =>
            rw [if_pos rfl, if_pos rfl]
            have hseg := swapLoop_segment A (B.take len) (B.drop len) (by omega)
            rw [hS] at hseg
            rw [← hAB] at hseg
            exact hseg
      rw [hq1]
      set A2 : List Nat := A ++ (if rev then (B.take len).reverse else B.take len) with hA2
      have hA2len : A2.length = A.length + len := by
        cases rev <;> simp [hA2, hS]
      have e1 : A.length + B.length = A2.length + (B.drop len).length := by
        simp only [hA2len, List.length_drop]
        omega
      have e2 : A.length + len = A2.length := hA2len.symm
      rw [e1, e2]
      rw [ih A2 (B.drop len) (fun p hp => hpos p (List.mem_cons_of_mem _ hp))
        (by simp only [List.length_drop]; omega)]
      simp only [segmentReverseSpec]
      rw [hA2, List.append_assoc]

/-- **C7.** For every buffer `qual` and every list of `(flag, length)` pairs
with each length at least 1 and lengths summing to `qual.length`,
`reverse_qualities` reverses in place exactly the segments whose flag is
`true` and leaves every `false` segment byte-for-byte unchanged
(`segmentReverseSpec` is the claim's description of that transform); and the
`fqz_decode` post-processing runs this reversal iff the global `DO_REV` flag
is set — with the flag clear the buffer is returned untouched. -/
theorem reverse_qualities_reverses_flagged (qual : List Nat) (revs : List (Bool × Nat))
    (hpos : ∀ p ∈ revs, 1 ≤ p.2) (hsum : (revs.map Prod.snd).sum = qual.length) :
    reverse_qualities qual qual.length revs = some (segmentReverseSpec revs qual) ∧
    fqzApplyReverse true qual qual.length revs = some (segmentReverseSpec revs qual) ∧
    (∀ (dst : List Nat) (n : Nat) (rl : List (Bool × Nat)),
      fqzApplyReverse false dst n rl = some dst) := by
  have h := reverseQualitiesGo_segments revs [] qual hpos hsum
  simp only [List.nil_append, List.length_nil, Nat.zero_add] at h
  refine ⟨h, by simpa [fqzApplyReverse, reverse_qualities] using h, fun dst n rl => rfl⟩

/-- **C7 witness.** The reversal theorem applied at a concrete 5-byte buffer
split into a reversed 2-byte record and an untouched 3-byte record. -/
theorem reverse_qualities_reverses_flagged_witness :
    reverse_qualities [1, 2, 3, 4, 5] 5 [(true, 2), (false, 3)] =
      some (segmentReverseSpec [(true, 2), (false, 3)] [1, 2, 3, 4, 5]) :=
  (reverse_qualities_reverses_flagged [1, 2, 3, 4, 5] [(true, 2), (false, 3)]
    (by decide) (by decide)).1

/-! ## Theorems about the rANS stream framing -/

/-- **C6.** `rans_decode` parses a header of one order byte followed by a
little-endian u32 compressed length and a little-endian u32 uncompressed
length; an order byte other than 0 or 1 is rejected; and every successful
call returns a buffer whose length is exactly the declared uncompressed
length (the payload decoders fill the caller's fixed-size buffer in place). -/
theorem rans_decode_header_and_length (d0 d1 : OrderDecoder) :
    (∀ b0 b1 b2 b3 b4 b5 b6 b7 b8 (rest : List Nat),
      (b0 = 0 → read_header (b0 :: b1 :: b2 :: b3 :: b4 :: b5 :: b6 :: b7 :: b8 :: rest) =
        .ok ((.Zero, leU32 b1 b2 b3 b4, leU32 b5 b6 b7 b8), rest)) ∧
      (b0 = 1 → read_header (b0 :: b1 :: b2 :: b3 :: b4 :: b5 :: b6 :: b7 :: b8 :: rest) =
        .ok ((.One, leU32 b1 b2 b3 b4, leU32 b5 b6 b7 b8), rest)) ∧
      (b0 ≠ 0 → b0 ≠ 1 → read_header (b0 :: b1 :: b2 :: b3 :: b4 :: b5 :: b6 :: b7 :: b8 :: rest) =
        .error .invalidOrder)) ∧
    (∀ input v, rans_decode d0 d1 input = .ok v →
      ∃ order compressed_len r, read_header input = .ok ((order, compressed_len, v.1.length), r)) := by
  constructor
  · intro b0 b1 b2 b3 b4 b5 b6 b7 b8 rest
    refine ⟨fun h => by subst h; rfl, fun h => by subst h; rfl, fun h0 h1 => ?_⟩
    simp [read_header, read_u8, orderTryFrom, h0, h1]
  · intro input v h
    unfold rans_decode at h
    rcases hh : read_header input with e | x
    · rw [hh] at h
      exact absurd h (by simp)
    · obtain ⟨⟨order, compressed_len, data_len⟩, r⟩ := x
      rw [hh] at h
      obtain ⟨out, rest2⟩ := v
      cases order with
      | Zero =>
          simp only at h
          have hlen := d0.length_eq r (List.replicate data_len 0) out rest2 h
          rw [List.length_replicate] at hlen
          exact ⟨.Zero, compressed_len, r, by simp [hh, hlen]⟩
      | One =>
          simp only at h
          have hlen := d1.length_eq r (List.replicate data_len 0) out rest2 h
          rw [List.length_replicate] at hlen
          exact ⟨.One, compressed_len, r, by simp [hh, hlen]⟩

/-- **C6 witness.** The header theorem applied at the source's own order-0
test header (`order 0, compressed 37, uncompressed 7`), and the length
theorem applied to a concrete successful decode. -/
theorem rans_decode_header_and_length_witness :
    read_header [0, 37, 0, 0, 0, 7, 0, 0, 0] =
      .ok ((.Zero, leU32 37 0 0 0, leU32 7 0 0 0), []) ∧
    ∃ order compressed_len r,
      read_header [0, 37, 0, 0, 0, 7, 0, 0, 0, 9, 9] =
        .ok ((order, compressed_len,
          ((List.replicate 7 0, [9, 9]) : List Nat × List Nat).1.length), r) :=
  ⟨((rans_decode_header_and_length idOrderDecoder idOrderDecoder).1
      0 37 0 0 0 7 0 0 0 []).1 rfl,
    (rans_decode_header_and_length idOrderDecoder idOrderDecoder).2
      [0, 37, 0, 0, 0, 7, 0, 0, 0, 9, 9] (List.replicate 7 0, [9, 9]) rfl⟩

/-! ## Theorems about the CRAM file definition -/

/-- **C8.** `read_file_definition` consumes exactly the 26-byte prelude: on an
input whose first four bytes are the `CRAM` magic and which holds at least 26
bytes it succeeds, taking the version from bytes 5 and 6 (indices 4 and 5)
and the 20-byte file id from bytes 7–26, leaving exactly `input.drop 26`,
with no constraint on the version values; a wrong magic (with at least 4
bytes present) yields `invalidMagic`; an input of fewer than 26 bytes yields
an error. -/
theorem read_file_definition_spec (input : List Nat) :
    (input.take 4 = MAGIC_NUMBER → 26 ≤ input.length →
      read_file_definition input =
        .ok (⟨(input.getD 4 0, input.getD 5 0), (input.drop 6).take 20⟩, input.drop 26)) ∧
    (input.take 4 ≠ MAGIC_NUMBER → 4 ≤ input.length →
      read_file_definition input = .error .invalidMagic) ∧
    (input.length < 26 → ∃ e, read_file_definition input = .error e) := by
  refine ⟨?_, ?_, ?_⟩
  · intro hm hl
    have h4 : (4 : Nat) ≤ input.length := by omega
    have hmag : read_magic_number input = .ok (input.drop 4) := by
      unfold read_magic_number read_exact
      rw [if_pos h4]
      simp [hm]
    rcases hd : input.drop 4 with _ | ⟨a, t1⟩
    · have := congrArg List.length hd
      simp [List.length_drop] at this
      omega
    rcases ht : t1 with _ | ⟨b, t2⟩
    · have h1 := congrArg List.length hd
      rw [ht] at h1
      simp [List.length_drop] at h1
      omega
    have ha : a = input.getD 4 0 := by
      have h0 : (input.drop 4)[0]? = input[4]? := by
        rw [List.getElem?_drop]
      rw [hd, ht] at h0
      have h5 : 4 < input.length := by omega
      rw [List.getElem?_eq_getElem h5] at h0
      rw [List.getD_eq_getElem input 0 h5]
      simpa using h0
    have hb : b = input.getD 5 0 := by
      have h0 : (input.drop 4)[1]? = input[5]? := by
        rw [List.getElem?_drop]
      rw [hd, ht] at h0
      have h5 : 5 < input.length := by omega
      rw [List.getElem?_eq_getElem h5] at h0
      rw [List.getD_eq_getElem input 0 h5]
      simpa using h0
    have ht2 : t2 = input.drop 6 := by
      have h0 : (input.drop 4).drop 2 = input.drop 6 := by
        rw [List.drop_drop]
      rw [hd, ht] at h0
      simpa using h0
    have hfmt : read_format (input.drop 4) = .some ((input.getD 4 0, input.getD 5 0), input.drop 6) := by
      rw [hd, ht]
      simp [read_format, read_u8, ha, hb, ht2]
    have hfid : read_file_id (input.drop 6) =
        .some ((input.drop 6).take 20, input.drop 26) := by
      unfold read_file_id read_exact
      rw [if_pos (by simp [List.length_drop]; omega)]
      rw [List.drop_drop]
    unfold read_file_definition
    rw [hmag]
    simp only
    rw [hfmt]
    simp only
    rw [hfid]
  · intro hm h4
    have hmag : read_magic_number input = .error .invalidMagic := by
      unfold read_magic_number read_exact
      rw [if_pos h4]
      simp [hm]
    unfold read_file_definition
    rw [hmag]
  · intro hl
    by_cases h4 : 4 ≤ input.length
    · by_cases hm : input.take 4 = MAGIC_NUMBER
      · have hmag : read_magic_number input = .ok (input.drop 4) := by
          unfold read_magic_number read_exact
          rw [if_pos h4]
          simp [hm]
        rcases hd : input.drop 4 with _ | ⟨a, t1⟩
        · refine ⟨.truncated, ?_⟩
          unfold read_file_definition
          rw [hmag]
          simp only
          rw [hd]
          rfl
        · rcases ht : t1 with _ | ⟨b, t2⟩
          · refine ⟨.truncated, ?_⟩
            unfold read_file_definition
            rw [hmag]
            simp only
            rw [hd, ht]
            rfl
          · have hlt2 : t2.length < 20 := by
              have h1 := congrArg List.length hd
              rw [ht] at h1
              simp [List.length_drop] at h1
              omega
            refine ⟨.truncated, ?_⟩
            unfold read_file_definition
            rw [hmag]
            simp only
            rw [hd, ht]
            have hfmt : read_format (a :: b :: t2) = .some ((a, b), t2) := rfl
            rw [hfmt]
            simp only
            have hfid : read_file_id t2 = .none := by
              unfold read_file_id read_exact
              rw [if_neg (by omega)]
            rw [hfid]
      · refine ⟨.invalidMagic, ?_⟩
        have hmag : read_magic_number input = .error .invalidMagic := by
          unfold read_magic_number read_exact
          rw [if_pos h4]
          simp [hm]
        unfold read_file_definition
        rw [hmag]
    · refine ⟨.truncated, ?_⟩
      have hmag : read_magic_number input = .error .truncated := by
        unfold read_magic_number read_exact
        rw [if_neg h4]
      unfold read_file_definition
      rw [hmag]

/-- **C8 witness.** The file-definition theorem applied at a concrete 27-byte
input: magic `CRAM`, version (3, 1), a 20-byte id, and one trailing byte. -/
theorem read_file_definition_spec_witness :
    read_file_definition
        (MAGIC_NUMBER ++ [3, 1] ++ List.replicate 20 7 ++ [99]) =
      .ok (⟨((MAGIC_NUMBER ++ [3, 1] ++ List.replicate 20 7 ++ [99]).getD 4 0,
              (MAGIC_NUMBER ++ [3, 1] ++ List.replicate 20 7 ++ [99]).getD 5 0),
            ((MAGIC_NUMBER ++ [3, 1] ++ List.replicate 20 7 ++ [99]).drop 6).take 20⟩,
          (MAGIC_NUMBER ++ [3, 1] ++ List.replicate 20 7 ++ [99]).drop 26) :=
  (read_file_definition_spec (MAGIC_NUMBER ++ [3, 1] ++ List.replicate 20 7 ++ [99])).1
    (by decide) (by decide)

/-- **C10 witness.** Seeding applied at an empty builder and a fully mapped
record. -/
theorem add_record_seeds_context_witness :
    Builder.add_record ⟨[], .None⟩ ⟨.some 0, .some 8, .some 13⟩ =
      .ok ⟨[⟨.some 0, .some 8, .some 13⟩], seedContext ⟨.some 0, .some 8, .some 13⟩⟩ :=
  (add_record_seeds_context ⟨[], .None⟩ ⟨.some 0, .some 8, .some 13⟩ rfl).1

/-! ## Theorems about the BCF typed values -/

lemma decodeI8_i8Byte (v : Int) (h1 : -128 ≤ v) (h2 : v ≤ 127) :
    decodeI8 (i8Byte v) = v := by
  unfold decodeI8 i8Byte
  split <;> omega

lemma decodeI8List_map (vs : List Int) (h : ∀ x ∈ vs, wfInt8 x = true) :
    decodeI8List (vs.map i8Byte) = vs := by
  induction vs with
  | nil => rfl
  | cons v rest ih =>
      have hv := h v (List.mem_cons_self _ _)
      simp only [wfInt8, Bool.and_eq_true, decide_eq_true_eq] at hv
      simp only [List.map_cons, decodeI8List, decodeI8_i8Byte v hv.1 hv.2]
      have := ih (fun x hx => h x (List.mem_cons_of_mem _ hx))
      simp only [decodeI8List] at this
      rw [this]

lemma decodeI16List_cons (v : Int) (rest : List Nat) (h1 : -32768 ≤ v) (h2 : v ≤ 32767) :
    decodeI16List (i16Bytes v ++ rest) = v :: decodeI16List rest := by
  simp only [i16Bytes, List.cons_append, List.nil_append, decodeI16List]
  congr 1
  simp only [decodeI16]
  split <;> omega

lemma decodeI16List_flatten (vs : List Int) (h : ∀ x ∈ vs, wfInt16 x = true) :
    decodeI16List (vs.map i16Bytes).flatten = vs := by
  induction vs with
  | nil => rfl
  | cons v rest ih =>
      have hv := h v (List.mem_cons_self _ _)
      simp only [wfInt16, Bool.and_eq_true, decide_eq_true_eq] at hv
      simp only [List.map_cons, List.flatten_cons]
      rw [decodeI16List_cons v _ hv.1 hv.2, ih (fun x hx => h x (List.mem_cons_of_mem _ hx))]

lemma length_flatten_i16 (vs : List Int) :
    (vs.map i16Bytes).flatten.length = 2 * vs.length := by
  induction vs with
  | nil => rfl
  | cons v rest ih =>
      simp only [List.map_cons, List.flatten_cons, List.length_append, ih]
      simp [i16Bytes]
      omega

lemma decodeI32List_cons (v : Int) (rest : List Nat)
    (h1 : -2147483648 ≤ v) (h2 : v ≤ 2147483647) :
    decodeI32List (i32Bytes v ++ rest) = v :: decodeI32List rest := by
  simp only [i32Bytes, List.cons_append, List.nil_append, decodeI32List]
  congr 1
  simp only [decodeI32, leU32]
  split <;> omega

lemma decodeI32List_flatten (vs : List Int) (h : ∀ x ∈ vs, wfInt32 x = true) :
    decodeI32List (vs.map i32Bytes).flatten = vs := by
  induction vs with
  | nil => rfl
  | cons v rest ih =>
      have hv := h v (List.mem_cons_self _ _)
      simp only [wfInt32, Bool.and_eq_true, decide_eq_true_eq] at hv
      simp only [List.map_cons, List.flatten_cons]
      rw [decodeI32List_cons v _ hv.1 hv.2, ih (fun x hx => h x (List.mem_cons_of_mem _ hx))]

lemma length_flatten_i32 (vs : List Int) :
    (vs.map i32Bytes).flatten.length = 4 * vs.length := by
  induction vs with
  | nil => rfl
  | cons v rest ih =>
      simp only [List.map_cons, List.flatten_cons, List.length_append, ih]
      simp [i32Bytes]
      omega

lemma read_type_write_type (code len : Nat) (hc : code < 16) (hl : len < 2147483648)
    (rest : List Nat) :
    read_type (write_type code len ++ rest) = .some ((code, len), rest) := by
  unfold write_type
  by_cases h : len < 15
  · rw [if_pos h]
    simp only [List.cons_append, List.nil_append, read_type]
    rw [show (len * 16 + code) / 16 = len from by omega]
    rw [if_neg (by omega : ¬ len = 15)]
    rw [show (len * 16 + code) % 16 = code from by omega]
  · rw [if_neg h]
    simp only [i32Bytes, List.cons_append, List.nil_append, read_type, decodeI32, leU32]
    rw [show (((len : Nat) : Int) % 4294967296).toNat = len from by omega]
    rw [show (15 * 16 + code) / 16 = 15 from by omega]
    rw [show (15 * 16 + code) % 16 = code from by omega]
    rw [show len % 256 + 256 * (len / 256 % 256) + 65536 * (len / 65536 % 256) +
      16777216 * (len / 16777216 % 256) = len from by omega]
    simp [hl]

lemma read_exact_all (l : List Nat) : read_exact l.length l = .some (l, []) := by
  simp [read_exact]

lemma read_value_write_value (v : Option Value) (hw : wfValue v = true) :
    read_value (write_value v) = .some (v, []) := by
  match v with
  | .none => decide
  | .some (.Int8 .none) => decide
  | .some (.Int16 .none) => decide
  | .some (.Int32 .none) => decide
  | .some (.Int8 (.some x)) =>
      simp only [wfValue, wfInt8, Bool.and_eq_true, decide_eq_true_eq] at hw
      show read_value (17 :: [i8Byte x]) = _
      show Option.some (Option.some (Value.Int8 (.some (decodeI8 (i8Byte x)))), []) = _
      rw [decodeI8_i8Byte x hw.1 hw.2]
  | .some (.Int16 (.some x)) =>
      simp only [wfValue, wfInt16, Bool.and_eq_true, decide_eq_true_eq] at hw
      have hcons := decodeI16List_cons x [] hw.1 hw.2
      rw [List.append_nil] at hcons
      show read_value (18 :: i16Bytes x) = _
      simp only [i16Bytes] at hcons ⊢
      show Option.some (Option.some (Value.Int16 (.some
        ((decodeI16List [(((x : Int) % 65536).toNat) % 256,
          (((x : Int) % 65536).toNat) / 256]).getD 0 0))), []) = _
      rw [hcons]
      rfl
  | .some (.Int32 (.some x)) =>
      simp only [wfValue, wfInt32, Bool.and_eq_true, decide_eq_true_eq] at hw
      have hcons := decodeI32List_cons x [] hw.1 hw.2
      rw [List.append_nil] at hcons
      show read_value (19 :: i32Bytes x) = _
      simp only [i32Bytes] at hcons ⊢
      show Option.some (Option.some (Value.Int32 (.some
        ((decodeI32List [(((x : Int) % 4294967296).toNat) % 256,
          (((x : Int) % 4294967296).toNat) / 256 % 256,
          (((x : Int) % 4294967296).toNat) / 65536 % 256,
          (((x : Int) % 4294967296).toNat) / 16777216 % 256]).getD 0 0))), []) = _
      rw [hcons]
      rfl
  | .some (.Int8Array vs) =>
      simp only [wfValue, Bool.and_eq_true, decide_eq_true_eq, List.all_eq_true] at hw
      obtain ⟨⟨h2, h31⟩, helts⟩ := hw
      simp only [write_value]
      unfold read_value
      rw [read_type_write_type 1 vs.length (by omega) (by omega)]
      simp only [if_true]
      rw [if_neg (by omega : ¬ vs.length = 0)]
      rw [show vs.length = (vs.map i8Byte).length from (List.length_map _ _).symm,
        read_exact_all]
      simp only
      rw [decodeI8List_map vs helts]
      rw [List.length_map]
      rw [if_neg (by omega : ¬ vs.length = 1)]
      have hne : ¬ vs.length = 0 := by omega
      simp [hne]
  | .some (.Int16Array vs) =>
      simp only [wfValue, Bool.and_eq_true, decide_eq_true_eq, List.all_eq_true] at hw
      obtain ⟨⟨h2, h31⟩, helts⟩ := hw
      simp only [write_value]
      unfold read_value
      rw [read_type_write_type 2 vs.length (by omega) (by omega)]
      simp only [if_true]
      rw [if_neg (by omega : ¬ vs.length = 0)]
      rw [show 2 * vs.length = (vs.map i16Bytes).flatten.length from (length_flatten_i16 vs).symm,
        read_exact_all]
      simp only
      rw [decodeI16List_flatten vs helts]
      rw [if_neg (by omega : ¬ vs.length = 1)]
      have hne : ¬ vs.length = 0 := by omega
      simp [hne]
  | .some (.Int32Array vs) =>
      simp only [wfValue, Bool.and_eq_true, decide_eq_true_eq, List.all_eq_true] at hw
      obtain ⟨⟨h2, h31⟩, helts⟩ := hw
      simp only [write_value]
      unfold read_value
      rw [read_type_write_type 3 vs.length (by omega) (by omega)]
      simp only [if_true]
      rw [if_neg (by omega : ¬ vs.length = 0)]
      rw [show 4 * vs.length = (vs.map i32Bytes).flatten.length from (length_flatten_i32 vs).symm,
        read_exact_all]
      simp only
      rw [decodeI32List_flatten vs helts]
      rw [if_neg (by omega : ¬ vs.length = 1)]
      have hne : ¬ vs.length = 0 := by omega
      simp [hne]

/-- **C5 counterexample.** The claim's round trip and injectivity fail on the
stated set: the missing scalar `Int8(None)` and the empty array
`Int8Array([])` both serialize to the single type byte `0x01`
(`write_type(Type::Int8(0))`), and the scalar `Int8(5)` and the singleton
array `Int8Array([5])` both serialize to `[0x11, 0x05]`, so distinct values
of the set produce identical byte output and no decoder can return both. -/
theorem write_value_collision :
    write_value (.some (.Int8 .none)) = write_value (.some (.Int8Array [])) ∧
    (Option.some (Value.Int8 .none) ≠ .some (.Int8Array [])) ∧
    write_value (.some (.Int8 (.some 5))) = write_value (.some (.Int8Array [5])) ∧
    (Option.some (Value.Int8 (.some 5)) ≠ .some (.Int8Array [5])) := by
  refine ⟨rfl, by decide, rfl, by decide⟩

/-- **C5 (amended).** On the stated set restricted to well-formed values —
scalars fitting their width, arrays with at least 2 and fewer than `2^31`
elements (empty and singleton arrays are excluded because their encodings
collide with the missing scalar and the scalar, as the counterexample
shows) — decoding the bytes of `write_value` yields the value back with no
bytes left over, and `write_value` is injective. -/
theorem write_value_round_trip_amended :
    (∀ v : Option Value, wfValue v = true → read_value (write_value v) = .some (v, [])) ∧
    (∀ v w : Option Value, wfValue v = true → wfValue w = true →
      write_value v = write_value w → v = w) := by
  refine ⟨read_value_write_value, fun v w hv hw he => ?_⟩
  have h1 := read_value_write_value v hv
  rw [he, read_value_write_value w hw] at h1
  simpa using h1.symm

/-- **C5 witness.** The amended round trip applied at the source's own test
vector `Int16Array [377, 610, 987]`, and injectivity applied at two equal
scalars. -/
theorem write_value_round_trip_amended_witness :
    read_value (write_value (.some (.Int16Array [377, 610, 987]))) =
      .some (.some (.Int16Array [377, 610, 987]), []) ∧
    (Option.some (Value.Int8 (.some 5)) : Option Value) = .some (.Int8 (.some 5)) :=
  ⟨write_value_round_trip_amended.1 (.some (.Int16Array [377, 610, 987])) (by decide),
    write_value_round_trip_amended.2 (.some (.Int8 (.some 5))) (.some (.Int8 (.some 5)))
      (by decide) (by decide) rfl⟩

/-! ## Theorems about the normalized MD5 digest -/

lemma isAsciiGraphic_toAsciiUppercase (b : Nat) (h : isAsciiGraphic b = true) :
    isAsciiGraphic (toAsciiUppercase b) = true := by
  simp only [isAsciiGraphic, toAsciiUppercase, Bool.and_eq_true, decide_eq_true_eq] at *
  split <;> omega

lemma toAsciiUppercase_idem (b : Nat) :
    toAsciiUppercase (toAsciiUppercase b) = toAsciiUppercase b := by
  unfold toAsciiUppercase
  split_ifs <;> omega

lemma normalizeSequence_idem (s : List Nat) :
    normalizeSequence (normalizeSequence s) = normalizeSequence s := by
  induction s with
  | nil => rfl
  | cons b t ih =>
      by_cases hg : isAsciiGraphic b = true
      · have hg2 := isAsciiGraphic_toAsciiUppercase b hg
        simp only [normalizeSequence, List.filter_cons, hg, hg2, if_true, List.map_cons,
          toAsciiUppercase_idem] at *
        rw [ih]
      · simp only [normalizeSequence, List.filter_cons, hg] at *
        simpa using ih

/-- **C1.** `calculate_normalized_sequence_digest S` is the MD5 of `S` with
every byte outside the inclusive range 33..=126 removed and ASCII lowercase
letters uppercased; consequently the digest is invariant under that
normalization, `digest(b"ACgt") = digest(b"ACGT")`, and the digest of
`b"ACGTACGTACGTACGTACGTACGT...12345!!!"` is
`dfabdbb36e239a6da88957841f32b8e4`. -/
theorem calculate_normalized_sequence_digest_spec :
    (∀ S : List Nat, calculate_normalized_sequence_digest S = md5 (normalizeSequence S)) ∧
    (∀ S : List Nat, calculate_normalized_sequence_digest (normalizeSequence S) =
      calculate_normalized_sequence_digest S) ∧
    calculate_normalized_sequence_digest [65, 67, 103, 116] =
      calculate_normalized_sequence_digest [65, 67, 71, 84] ∧
    calculate_normalized_sequence_digest
        [65, 67, 71, 84, 65, 67, 71, 84, 65, 67, 71, 84,
         65, 67, 71, 84, 65, 67, 71, 84, 65, 67, 71, 84,
         46, 46, 46, 49, 50, 51, 52, 53, 33, 33, 33] =
      [0xdf, 0xab, 0xdb, 0xb3, 0x6e, 0x23, 0x9a, 0x6d,
       0xa8, 0x89, 0x57, 0x84, 0x1f, 0x32, 0xb8, 0xe4] := by
  refine ⟨fun S => rfl, fun S => ?_, by decide, by decide⟩
  unfold calculate_normalized_sequence_digest
  rw [normalizeSequence_idem]

end Noodles
